import Mathlib

/-!
Verification of the communication-fusion optimizer in `spmd/compiler/fusion.py`.

The development shallowly embeds the value-level and control-level behaviour of
the pass: tensors are shapes plus flat data lists, a `FusionElement` is the
scanned record of one reduction occurrence, and the three fusion strategies
(ring-buffer copy fusion, concatenation fusion, just-in-time buffer fusion)
are embedded as functions from the scanned element list to the list of final
output values.  Graph-level aspects (node names, output argument slots, the
entry-point assertions) are embedded over a small node/graph model.
-/

namespace SpmdFusion

/-- Scalar value carried by one tensor element. -/
abbrev Val := Int

/-- A tensor value: its shape and its flattened data. -/
structure Tensor where
  shape : List Nat
  data : List Val
deriving DecidableEq, Repr

/-- `FusionElement` (fusion.py lines 23-52): one scanned reduction occurrence.
`size` is the scalar element count (`tmeta.shape.numel()`), `shape` the
gradient tensor's shape, and `grad` the flattened gradient data on this rank.
`peers` is the elementwise contribution accumulated from the other ranks by
the external all-reduce collective (the reduction primitive itself lives in
`torch.distributed`, outside this repository; spec section 6 treats it as an
external collaborator). -/
structure FusionElement where
  size : Nat
  shape : List Nat
  grad : List Val
  peers : List Val
deriving DecidableEq, Repr

/-- Well-formedness recorded by the scanner: `size = tmeta.shape.numel()` and
the flat data really has `size` entries (both for this rank's gradient and for
the peers' accumulated contribution). -/
def FusionElement.wf (fe : FusionElement) : Prop :=
  fe.grad.length = fe.size ∧ fe.peers.length = fe.size ∧ fe.shape.prod = fe.size

instance (fe : FusionElement) : Decidable fe.wf := by
  unfold FusionElement.wf; infer_instance

/-- Modelled from the spec: the all-reduce collective (spec section 6 and the
glossary; `torch.distributed.all_reduce` is not part of this repository) sums,
elementwise, this rank's tensor with the accumulated contribution of the other
ranks. -/
def allReduce (mine peersContribution : List Val) : List Val :=
  List.zipWith (· + ·) mine peersContribution

/-- Data of the reduced gradient of one fusion element. -/
def FusionElement.reducedData (fe : FusionElement) : List Val :=
  allReduce fe.grad fe.peers

/-- Value of a fusion element's wait node in the original (un-rewritten)
graph: the all-reduced gradient with its original shape. -/
def FusionElement.reduced (fe : FusionElement) : Tensor :=
  ⟨fe.shape, fe.reducedData⟩

/-- Output values of the original graph, one per scanned element, in scan
(= output slot) order. -/
def originalOutputs (fes : List FusionElement) : List Tensor :=
  fes.map FusionElement.reduced

/-! ## Count-based grouping

Both count-based strategies group with
`for start in range(0, len(fe_list), fusion_length): fe_list[start:start+fusion_length]`
(fusion.py lines 701-703 and 885-886).  `chunkGo` walks those consecutive
slices with the list length as structural fuel. -/

def chunkGo : Nat → List α → Nat → List (List α)
  | 0, _, _ => []
  | _, [], _ => []
  | fuel + 1, a :: l, n => (a :: l.take (n - 1)) :: chunkGo fuel (l.drop (n - 1)) n

/-- Consecutive slices of length `n` (the last possibly shorter), as produced
by the `range(0, len, fusion_length)` loops of the ring and cat strategies. -/
def chunkList (l : List α) (n : Nat) : List (List α) :=
  chunkGo l.length l n

/-- The grouping used by both count-based strategies (ring: fusion.py line
701; cat: line 885). -/
def countGroups (fes : List FusionElement) (fusion_length : Nat) :
    List (List FusionElement) :=
  chunkList fes fusion_length

theorem chunkGo_join {α : Type} (n : Nat) (hn : 0 < n) :
    ∀ (fuel : Nat) (l : List α), l.length ≤ fuel →
      (chunkGo fuel l n).flatten = l := by
  intro fuel
  induction fuel with
  | zero =>
    intro l hl
    have : l = [] := List.length_eq_zero.mp (Nat.le_zero.mp hl)
    subst this; simp [chunkGo]
  | succ k ih =>
    intro l hl
    cases l with
    | nil => simp [chunkGo]
    | cons a t =>
      simp only [chunkGo, List.flatten_cons]
      rw [ih (t.drop (n - 1)) ?_]
      · simp [List.take_append_drop]
      · have := List.length_drop (n - 1) t
        have h1 : t.length ≤ k := by
          simpa [Nat.succ_le_succ_iff] using hl
        omega

theorem chunkList_join {α : Type} (l : List α) (n : Nat) (hn : 0 < n) :
    (chunkList l n).flatten = l :=
  chunkGo_join n hn l.length l le_rfl

theorem chunkGo_mem_shape {α : Type} (n : Nat) (hn : 0 < n) :
    ∀ (fuel : Nat) (l : List α), l.length ≤ fuel →
      ∀ g ∈ chunkGo fuel l n, g ≠ [] ∧ g.length ≤ n := by
  intro fuel
  induction fuel with
  | zero => intro l _ g hg; simp [chunkGo] at hg
  | succ k ih =>
    intro l hl g hg
    cases l with
    | nil => simp [chunkGo] at hg
    | cons a t =>
      simp only [chunkGo, List.mem_cons] at hg
      rcases hg with rfl | hg
      · refine ⟨by simp, ?_⟩
        have : (t.take (n - 1)).length ≤ n - 1 := by
          simpa using List.length_take_le (n - 1) t
        simp only [List.length_cons]
        omega
      · exact ih (t.drop (n - 1)) (by have := List.length_drop (n - 1) t; simp at hl; omega) g hg

theorem chunkList_mem_shape {α : Type} (l : List α) (n : Nat) (hn : 0 < n) :
    ∀ g ∈ chunkList l n, g ≠ [] ∧ g.length ≤ n :=
  chunkGo_mem_shape n hn l.length l le_rfl

theorem chunkGo_dropLast_full {α : Type} (n : Nat) (hn : 0 < n) :
    ∀ (fuel : Nat) (l : List α), l.length ≤ fuel →
      ∀ g ∈ (chunkGo fuel l n).dropLast, g.length = n := by
  intro fuel
  induction fuel with
  | zero => intro l _ g hg; simp [chunkGo] at hg
  | succ k ih =>
    intro l hl g hg
    cases l with
    | nil => simp [chunkGo] at hg
    | cons a t =>
      simp only [chunkGo] at hg
      by_cases hrest : chunkGo k (t.drop (n - 1)) n = []
      · rw [hrest] at hg; simp at hg
      · obtain ⟨c, cs, hcs⟩ := List.exists_cons_of_ne_nil hrest
        rw [hcs] at hg
        simp only [List.dropLast_cons₂, List.mem_cons] at hg
        have htlen : t.length ≤ k := by simp at hl; omega
        rcases hg with rfl | hg
        · -- the head chunk is followed by another chunk, hence is full
          have hne : t.drop (n - 1) ≠ [] := by
            intro hdrop
            rw [hdrop] at hcs
            cases k <;> simp [chunkGo] at hcs
          have : n - 1 < t.length := by
            by_contra hcon
            exact hne (List.drop_eq_nil_of_le (by omega))
          simp only [List.length_cons, List.length_take]
          omega
        · have := ih (t.drop (n - 1)) (by have := List.length_drop (n - 1) t; omega)
          rw [hcs] at this
          exact this g hg

theorem chunkList_dropLast_full {α : Type} (l : List α) (n : Nat) (hn : 0 < n) :
    ∀ g ∈ (chunkList l n).dropLast, g.length = n :=
  chunkGo_dropLast_full n hn l.length l le_rfl

/-- C2: for every scanned element list and both count-based strategies, the
groups formed by the `range(0, len, fusion_length)` loop partition the element
list into consecutive runs: joining the groups in order gives back exactly the
element list (so every `FusionElement` lands in exactly one group), every
group is non-empty of size at most `fusion_length`, and every group except
possibly the last has size exactly `fusion_length`. -/
theorem C2_count_grouping_partitions (fes : List FusionElement)
    (fusion_length : Nat) (hfl : 0 < fusion_length) :
    (countGroups fes fusion_length).flatten = fes
    ∧ (∀ g ∈ countGroups fes fusion_length, g ≠ [] ∧ g.length ≤ fusion_length)
    ∧ (∀ g ∈ (countGroups fes fusion_length).dropLast, g.length = fusion_length) :=
  ⟨chunkList_join fes fusion_length hfl,
   chunkList_mem_shape fes fusion_length hfl,
   chunkList_dropLast_full fes fusion_length hfl⟩

theorem C2_count_grouping_partitions_witness :
    0 < 2
    ∧ ((countGroups
          [⟨1, [1], [5], [7]⟩, ⟨2, [2], [1, 2], [3, 4]⟩, ⟨1, [1], [9], [2]⟩] 2).flatten =
        [⟨1, [1], [5], [7]⟩, ⟨2, [2], [1, 2], [3, 4]⟩, ⟨1, [1], [9], [2]⟩]
      ∧ (∀ g ∈ countGroups
          [⟨1, [1], [5], [7]⟩, ⟨2, [2], [1, 2], [3, 4]⟩, ⟨1, [1], [9], [2]⟩] 2,
            g ≠ [] ∧ g.length ≤ 2)
      ∧ (∀ g ∈ (countGroups
          [⟨1, [1], [5], [7]⟩, ⟨2, [2], [1, 2], [3, 4]⟩, ⟨1, [1], [9], [2]⟩] 2).dropLast,
            g.length = 2)) :=
  ⟨by decide,
   C2_count_grouping_partitions
     [⟨1, [1], [5], [7]⟩, ⟨2, [2], [1, 2], [3, 4]⟩, ⟨1, [1], [9], [2]⟩] 2 (by decide)⟩

/-! ## Peak-memory estimator -/

/-- Loop body of `_determine_peak_memory` (fusion.py lines 600-622): walk the
element sizes accumulating `curr_memory`; each time `curr_fe_index` reaches
`fusion_length`, fold `curr_memory` into the running max and reset both
counters.  Sizes left in the accumulator when the list ends are discarded,
exactly as in the source. -/
def _determine_peak_memory_go (fusion_length : Nat) :
    List Nat → Nat → Nat → Nat → Nat
  | [], peak_memory, _, _ => peak_memory
  | s :: rest, peak_memory, curr_memory, curr_fe_index =>
    let idx := curr_fe_index + 1
    let curr := curr_memory + s
    if idx = fusion_length then
      _determine_peak_memory_go fusion_length rest (Nat.max peak_memory curr) 0 0
    else
      _determine_peak_memory_go fusion_length rest peak_memory curr idx

/-- `_determine_peak_memory` (fusion.py lines 600-622), over the sizes of
`gi.fe_list` (each `item.size`), measured in numel. -/
def _determine_peak_memory (sizes : List Nat) (fusion_length : Nat) : Nat :=
  _determine_peak_memory_go fusion_length sizes 0 0 0

/-- C3 (code bug): the estimator drops the trailing partial chunk.  For
element sizes `[1, 1, 5]` and `fusion_length = 2` the fusion groups (as formed
by the main loop) have summed sizes `[2, 5]`, yet `_determine_peak_memory`
returns `2`: the capacity-2 ring buffer is smaller than the 5 elements that
the final group copies into it.  For a single element of size `3` with
`fusion_length = 2` the estimator even returns `0`, tripping the
`peak_memory_required > 0` assertion on a perfectly valid graph. -/
theorem C3_peak_memory_drops_trailing_chunk :
    _determine_peak_memory [1, 1, 5] 2 = 2
    ∧ (chunkList [1, 1, 5] 2).map List.sum = [2, 5]
    ∧ _determine_peak_memory [3] 2 = 0 := by
  decide

/-! ## Just-in-time byte-budget grouping -/

/-- `FP32_BYTES` (fusion.py line 1097). -/
def FP32_BYTES : Nat := 4

/-- Byte estimate the JIT loop adds per element:
`curr_size += fe.size * FP32_BYTES` (fusion.py line 1127). -/
def jit_estimated_bytes (fe : FusionElement) : Nat :=
  fe.size * FP32_BYTES

/-- Estimated byte total of one group under the JIT accumulation rule. -/
def groupBytes (sz : α → Nat) (g : List α) : Nat :=
  (g.map fun a => sz a * FP32_BYTES).sum

/-- The JIT grouping loop (fusion.py lines 1119-1164): accumulate
`sz fe * FP32_BYTES` into `curr_size`; once `curr_size >= bucket_size`, the
elements gathered since the last cut (held reversed in `acc`) together with
the crossing element form a group and the accumulator resets; after the loop
any leftover elements form a final flushed group. -/
def jitGroupsGo (bucket_size : Nat) (sz : α → Nat) :
    List α → Nat → List α → List (List α)
  | [], _, [] => []
  | [], _, acc => [acc.reverse]
  | fe :: rest, curr_size, acc =>
    let curr := curr_size + sz fe * FP32_BYTES
    if bucket_size ≤ curr then
      (acc.reverse ++ [fe]) :: jitGroupsGo bucket_size sz rest 0 []
    else
      jitGroupsGo bucket_size sz rest curr (fe :: acc)

/-- The groups formed by `run_fuse_communication_jit`'s byte-budget loop,
with `bucket_size = fusion_length * 1024 * 1024` (fusion.py line 1122). -/
def jitGroups (sz : α → Nat) (l : List α) (fusion_length : Nat) :
    List (List α) :=
  jitGroupsGo (fusion_length * 1024 * 1024) sz l 0 []

theorem jitGroupsGo_flatten (bucket_size : Nat) (sz : α → Nat) :
    ∀ (l : List α) (curr : Nat) (acc : List α),
      (jitGroupsGo bucket_size sz l curr acc).flatten = acc.reverse ++ l := by
  intro l
  induction l with
  | nil =>
    intro curr acc
    cases acc <;> simp [jitGroupsGo]
  | cons fe rest ih =>
    intro curr acc
    simp only [jitGroupsGo]
    by_cases h : bucket_size ≤ curr + sz fe * FP32_BYTES
    · simp [h, ih, List.append_assoc]
    · simp [h, ih]

theorem jitGroups_flatten (sz : α → Nat) (l : List α) (fusion_length : Nat) :
    (jitGroups sz l fusion_length).flatten = l := by
  simpa using jitGroupsGo_flatten (fusion_length * 1024 * 1024) sz l 0 []

theorem jitGroupsGo_ne_nil (bucket_size : Nat) (sz : α → Nat) :
    ∀ (l : List α) (curr : Nat) (acc : List α),
      ∀ g ∈ jitGroupsGo bucket_size sz l curr acc, g ≠ [] := by
  intro l
  induction l with
  | nil =>
    intro curr acc g hg
    cases acc with
    | nil => simp [jitGroupsGo] at hg
    | cons a t =>
      simp [jitGroupsGo] at hg
      subst hg
      simp
  | cons fe rest ih =>
    intro curr acc g hg
    simp only [jitGroupsGo] at hg
    by_cases h : bucket_size ≤ curr + sz fe * FP32_BYTES
    · simp only [if_pos h, List.mem_cons] at hg
      rcases hg with rfl | hg
      · simp
      · exact ih 0 [] g hg
    · rw [if_neg h] at hg
      exact ih _ _ g hg

/-- Membership in the dropLast of a cons list. -/
theorem mem_dropLast_cons {x g : α} {xs : List α}
    (h : g ∈ (x :: xs).dropLast) : (g = x ∧ xs ≠ []) ∨ g ∈ xs.dropLast := by
  cases xs with
  | nil => simp at h
  | cons y t =>
    rw [List.dropLast_cons₂] at h
    rcases List.mem_cons.mp h with rfl | h
    · exact Or.inl ⟨rfl, by simp⟩
    · exact Or.inr h

theorem jitGroupsGo_dropLast_ge (bucket_size : Nat) (sz : α → Nat) :
    ∀ (l : List α) (curr : Nat) (acc : List α),
      curr = groupBytes sz acc.reverse →
      ∀ g ∈ (jitGroupsGo bucket_size sz l curr acc).dropLast,
        bucket_size ≤ groupBytes sz g := by
  intro l
  induction l with
  | nil =>
    intro curr acc _ g hg
    cases acc <;> simp [jitGroupsGo] at hg
  | cons fe rest ih =>
    intro curr acc hcurr g hg
    simp only [jitGroupsGo] at hg
    by_cases h : bucket_size ≤ curr + sz fe * FP32_BYTES
    · rw [if_pos h] at hg
      rcases mem_dropLast_cons hg with ⟨rfl, _⟩ | hg
      · have : groupBytes sz (acc.reverse ++ [fe])
            = groupBytes sz acc.reverse + sz fe * FP32_BYTES := by
          simp [groupBytes]
        omega
      · exact ih 0 [] (by simp [groupBytes]) g hg
    · rw [if_neg h] at hg
      refine ih _ (fe :: acc) ?_ g hg
      simp [groupBytes, hcurr]

theorem jitGroupsGo_dropLast_lt (bucket_size : Nat) (sz : α → Nat)
    (hb : 0 < bucket_size) :
    ∀ (l : List α) (curr : Nat) (acc : List α),
      curr = groupBytes sz acc.reverse → curr < bucket_size →
      ∀ g ∈ jitGroupsGo bucket_size sz l curr acc,
        groupBytes sz g.dropLast < bucket_size := by
  intro l
  induction l with
  | nil =>
    intro curr acc hcurr hlt g hg
    cases acc with
    | nil => simp [jitGroupsGo] at hg
    | cons a t =>
      simp [jitGroupsGo] at hg
      subst hg
      -- dropping the last element cannot increase the byte total
      rw [List.reverse_cons] at hcurr
      rw [List.dropLast_concat]
      have h1 : groupBytes sz (t.reverse ++ [a])
          = groupBytes sz t.reverse + sz a * FP32_BYTES := by
        simp [groupBytes]
      omega
  | cons fe rest ih =>
    intro curr acc hcurr hlt g hg
    simp only [jitGroupsGo] at hg
    by_cases h : bucket_size ≤ curr + sz fe * FP32_BYTES
    · rw [if_pos h] at hg
      rcases List.mem_cons.mp hg with rfl | hg
      · rw [List.dropLast_concat, ← hcurr]
        exact hlt
      · exact ih 0 [] (by simp [groupBytes]) hb g hg
    · rw [if_neg h] at hg
      refine ih _ (fe :: acc) ?_ (by omega) g hg
      simp [groupBytes, hcurr]

/-- C5: the JIT strategy forms groups by accumulating the elements' estimated
byte sizes until the running total reaches or crosses the byte budget
`fusion_length * 1024 * 1024`; the boundary is cut right after the crossing
element (so every group minus its last element is still under the budget, and
every group before the last one has reached the budget), the accumulator
resets, and the remaining elements are flushed as a final group — so joining
the groups gives back exactly the scanned element list. -/
theorem C5_jit_grouping (fes : List FusionElement) (fusion_length : Nat)
    (hfl : 0 < fusion_length) :
    (jitGroups FusionElement.size fes fusion_length).flatten = fes
    ∧ (∀ g ∈ jitGroups FusionElement.size fes fusion_length, g ≠ [])
    ∧ (∀ g ∈ (jitGroups FusionElement.size fes fusion_length).dropLast,
        fusion_length * 1024 * 1024 ≤ groupBytes FusionElement.size g)
    ∧ (∀ g ∈ jitGroups FusionElement.size fes fusion_length,
        groupBytes FusionElement.size g.dropLast < fusion_length * 1024 * 1024) := by
  refine ⟨jitGroups_flatten _ fes fusion_length,
    fun g hg => jitGroupsGo_ne_nil _ _ fes 0 [] g hg,
    fun g hg => jitGroupsGo_dropLast_ge _ _ fes 0 [] (by simp [groupBytes]) g hg,
    fun g hg => jitGroupsGo_dropLast_lt _ _ ?_ fes 0 [] (by simp [groupBytes]) ?_ g hg⟩
  · positivity
  · positivity

theorem C5_jit_grouping_witness :
    0 < 1
    ∧ ((jitGroups FusionElement.size
          [⟨1, [1], [5], [7]⟩, ⟨300000, [300000], [], []⟩, ⟨2, [2], [1, 2], [3, 4]⟩] 1).flatten =
        [⟨1, [1], [5], [7]⟩, ⟨300000, [300000], [], []⟩, ⟨2, [2], [1, 2], [3, 4]⟩]
      ∧ (∀ g ∈ jitGroups FusionElement.size
          [⟨1, [1], [5], [7]⟩, ⟨300000, [300000], [], []⟩, ⟨2, [2], [1, 2], [3, 4]⟩] 1, g ≠ [])
      ∧ (∀ g ∈ (jitGroups FusionElement.size
          [⟨1, [1], [5], [7]⟩, ⟨300000, [300000], [], []⟩, ⟨2, [2], [1, 2], [3, 4]⟩] 1).dropLast,
          1 * 1024 * 1024 ≤ groupBytes FusionElement.size g)
      ∧ (∀ g ∈ jitGroups FusionElement.size
          [⟨1, [1], [5], [7]⟩, ⟨300000, [300000], [], []⟩, ⟨2, [2], [1, 2], [3, 4]⟩] 1,
          groupBytes FusionElement.size g.dropLast < 1 * 1024 * 1024)) :=
  ⟨by decide,
   C5_jit_grouping
     [⟨1, [1], [5], [7]⟩, ⟨300000, [300000], [], []⟩, ⟨2, [2], [1, 2], [3, 4]⟩] 1 (by decide)⟩

/-! ## C10: the JIT byte estimate ignores the dtype -/

/-- Modelled from the spec: tensor dtypes of the external tensor library
(`torch`, outside this repository), with their per-element byte widths.  The
scanner's `TensorMetadata` carries a dtype, but `run_fuse_communication_jit`
never reads it. -/
inductive DType
  | float32
  | float16
  | bfloat16
  | float64
deriving DecidableEq, Repr

/-- Bytes per element of each dtype. -/
def DType.bytes : DType → Nat
  | .float32 => 4
  | .float16 => 2
  | .bfloat16 => 2
  | .float64 => 8

/-- True byte count transferred for a gradient of `fe.size` elements of
dtype `d`. -/
def true_transfer_bytes (fe : FusionElement) (d : DType) : Nat :=
  fe.size * d.bytes

theorem jitGroupsGo_size_determined (bucket_size : Nat) (sz : α → Nat)
    (sz' : β → Nat) :
    ∀ (l₁ : List α) (l₂ : List β) (curr : Nat) (acc₁ : List α) (acc₂ : List β),
      l₁.map sz = l₂.map sz' → acc₁.map sz = acc₂.map sz' →
      (jitGroupsGo bucket_size sz l₁ curr acc₁).map (List.map sz)
        = (jitGroupsGo bucket_size sz' l₂ curr acc₂).map (List.map sz') := by
  intro l₁
  induction l₁ with
  | nil =>
    intro l₂ curr acc₁ acc₂ hl hacc
    cases l₂ with
    | nil =>
      cases acc₁ with
      | nil =>
        cases acc₂ with
        | nil => simp [jitGroupsGo]
        | cons b bs => simp at hacc
      | cons a as =>
        cases acc₂ with
        | nil => simp at hacc
        | cons b bs =>
          simp only [jitGroupsGo, List.map_cons, List.map_nil]
          rw [List.map_reverse, List.map_reverse, hacc]
    | cons b bs => simp at hl
  | cons fe rest ih =>
    intro l₂ curr acc₁ acc₂ hl hacc
    cases l₂ with
    | nil => simp at hl
    | cons fe₂ rest₂ =>
      simp only [List.map_cons, List.cons.injEq] at hl
      obtain ⟨hfe, hrest⟩ := hl
      simp only [jitGroupsGo, hfe]
      by_cases h : bucket_size ≤ curr + sz' fe₂ * FP32_BYTES
      · rw [if_pos h, if_pos h]
        simp only [List.map_cons]
        rw [ih rest₂ 0 [] [] hrest (by simp)]
        congr 1
        simp only [List.map_append, List.map_cons, List.map_nil,
          List.map_reverse, hacc, hfe]
      · rw [if_neg h, if_neg h]
        exact ih rest₂ _ (fe :: acc₁) (fe₂ :: acc₂) hrest (by simp [hacc, hfe])

/-- C10: the byte size the JIT loop uses for grouping is exactly
`FP32_BYTES = 4` bytes per scalar element, regardless of the gradient's
dtype (the element record carries no dtype at all): group boundaries are a
function of the element counts alone, and for any dtype other than fp32
the estimate differs from the true transferred byte count whenever the
element is non-empty. -/
theorem C10_jit_bytes_dtype_independent (fe : FusionElement)
    (l₁ l₂ : List FusionElement) (fusion_length : Nat) (d : DType)
    (hsizes : l₁.map FusionElement.size = l₂.map FusionElement.size)
    (hd : d ≠ DType.float32) (hs : 0 < fe.size) :
    jit_estimated_bytes fe = 4 * fe.size
    ∧ (jitGroups FusionElement.size l₁ fusion_length).map (List.map FusionElement.size)
        = (jitGroups FusionElement.size l₂ fusion_length).map (List.map FusionElement.size)
    ∧ true_transfer_bytes fe d ≠ jit_estimated_bytes fe := by
  refine ⟨by simp [jit_estimated_bytes, FP32_BYTES, Nat.mul_comm], ?_, ?_⟩
  · exact jitGroupsGo_size_determined _ _ _ l₁ l₂ 0 [] [] hsizes rfl
  · intro hcontra
    have hb : d.bytes = FP32_BYTES := by
      simpa [true_transfer_bytes, jit_estimated_bytes] using
        Nat.eq_of_mul_eq_mul_left hs hcontra
    cases d <;> simp [DType.bytes, FP32_BYTES] at hb <;> exact hd rfl

theorem C10_jit_bytes_dtype_independent_witness :
    DType.float16 ≠ DType.float32 ∧ 0 < 3
    ∧ (jit_estimated_bytes ⟨3, [3], [1, 2, 3], [0, 0, 0]⟩ = 4 * 3
      ∧ (jitGroups FusionElement.size [⟨3, [3], [1, 2, 3], [0, 0, 0]⟩] 2).map
            (List.map FusionElement.size)
          = (jitGroups FusionElement.size [⟨3, [3], [9, 9, 9], [1, 1, 1]⟩] 2).map
            (List.map FusionElement.size)
      ∧ true_transfer_bytes ⟨3, [3], [1, 2, 3], [0, 0, 0]⟩ DType.float16
          ≠ jit_estimated_bytes ⟨3, [3], [1, 2, 3], [0, 0, 0]⟩) :=
  ⟨by decide, by decide,
   C10_jit_bytes_dtype_independent ⟨3, [3], [1, 2, 3], [0, 0, 0]⟩
     [⟨3, [3], [1, 2, 3], [0, 0, 0]⟩] [⟨3, [3], [9, 9, 9], [1, 1, 1]⟩] 2
     DType.float16 (by decide) (by decide) (by decide)⟩

/-! ## Graph node model

`fx.Node` as far as the pass reads it: an identity, the node name (the pass
recognizes wait nodes by the `"wait_comm"` name convention and asserts on the
`"wait"` name at output rewrite), and the scalar element count of the
gradient the node's comm block reduces (`tmeta.shape.numel()`; the comm-block
walk itself is `get_comm_block_nodes` from `graph_utils`, an import the
scanner uses). -/
structure Node where
  id : Nat
  name : String
  numel : Nat
deriving DecidableEq, Repr

/-- `s.startswith(p)` on node names. -/
def nameStartsWith (s p : String) : Bool :=
  List.isPrefixOf p.data s.data

/-! ## Output rewriter -/

/-- `_update_output_args` (fusion.py lines 841-851): for each scanned element
and its replacement result node, overwrite the output slot recorded for the
element's wait node in `gi.wait_node_idx`.  No check is made on the slot's
current content. -/
def _update_output_args (wait_node_idx : Node → Nat)
    (fe_wait_nodes grad_nodes output_args : List Node) : List Node :=
  (fe_wait_nodes.zip grad_nodes).foldl
    (fun args p => args.set (wait_node_idx p.1) p.2) output_args

/-- Generic slot-update loop: `setAll args ps` sets slot `p.1` to `p.2` for
each pair in order. -/
def setAll (args : List Node) (ps : List (Nat × Node)) : List Node :=
  ps.foldl (fun a p => a.set p.1 p.2) args

theorem _update_output_args_eq_setAll (wait_node_idx : Node → Nat)
    (ws gs args : List Node) :
    _update_output_args wait_node_idx ws gs args
      = setAll args ((ws.zip gs).map fun p => (wait_node_idx p.1, p.2)) := by
  simp [_update_output_args, setAll, List.foldl_map]

theorem setAll_getElem?_not_mem :
    ∀ (ps : List (Nat × Node)) (args : List Node) (j : Nat),
      (∀ q ∈ ps, q.1 ≠ j) → (setAll args ps)[j]? = args[j]? := by
  intro ps
  induction ps with
  | nil => intro args j _; simp [setAll]
  | cons q rest ih =>
    intro args j hne
    have h1 : (setAll args (q :: rest)) = setAll (args.set q.1 q.2) rest := rfl
    rw [h1, ih _ j (fun r hr => hne r (List.mem_cons_of_mem q hr)),
      List.getElem?_set_ne (hne q (List.mem_cons_self q rest))]

theorem setAll_getElem?_mem :
    ∀ (ps : List (Nat × Node)) (args : List Node) (i : Nat) (v : Node),
      (ps.map Prod.fst).Nodup → (i, v) ∈ ps → i < args.length →
      (setAll args ps)[i]? = some v := by
  intro ps
  induction ps with
  | nil => intro args i v _ hmem; simp at hmem
  | cons q rest ih =>
    intro args i v hnodup hmem hlen
    have h1 : (setAll args (q :: rest)) = setAll (args.set q.1 q.2) rest := rfl
    simp only [List.map_cons, List.nodup_cons] at hnodup
    rcases List.mem_cons.mp hmem with rfl | hmem
    · rw [h1, setAll_getElem?_not_mem rest _ i ?_, List.getElem?_set_eq hlen]
      intro r hr hri
      exact hnodup.1 (by simpa [hri] using List.mem_map_of_mem Prod.fst hr)
    · rw [h1]
      exact ih _ i v hnodup.2 hmem (by simpa using hlen)

/-- C6: the output rewriter (`_update_output_args`, fusion.py lines 841-851;
driven per group from lines 889 and 1136) replaces exactly the slots recorded
for the group's wait nodes with the group's replacement result nodes, leaves
every other slot of the argument list unchanged, and — run on two groups in
sequence — produces the same argument list as one run on the concatenated
group, so disjoint groups never disturb each other's slots. -/
theorem C6_output_rewriter_frame (wait_node_idx : Node → Nat)
    (ws₁ gs₁ ws₂ gs₂ output_args : List Node)
    (hl₁ : ws₁.length = gs₁.length)
    (hnodup : ((ws₁ ++ ws₂).map wait_node_idx).Nodup)
    (hlt : ∀ w ∈ ws₁, wait_node_idx w < output_args.length) :
    (∀ p ∈ ws₁.zip gs₁,
        (_update_output_args wait_node_idx ws₁ gs₁ output_args)[wait_node_idx p.1]?
          = some p.2)
    ∧ (∀ j, (∀ w ∈ ws₁, wait_node_idx w ≠ j) →
        (_update_output_args wait_node_idx ws₁ gs₁ output_args)[j]?
          = output_args[j]?)
    ∧ _update_output_args wait_node_idx ws₂ gs₂
        (_update_output_args wait_node_idx ws₁ gs₁ output_args)
      = _update_output_args wait_node_idx (ws₁ ++ ws₂) (gs₁ ++ gs₂) output_args := by
  have hfst : (ws₁.zip gs₁).map Prod.fst = ws₁ :=
    List.map_fst_zip _ _ (le_of_eq hl₁)
  have hnodup₁ : (ws₁.map wait_node_idx).Nodup := by
    rw [List.map_append] at hnodup
    exact hnodup.of_append_left
  refine ⟨?_, ?_, ?_⟩
  · intro p hp
    rw [_update_output_args_eq_setAll]
    refine setAll_getElem?_mem _ _ _ _ ?_ ?_ (hlt p.1 (List.of_mem_zip hp).1)
    · have : ((ws₁.zip gs₁).map fun p => (wait_node_idx p.1, p.2)).map Prod.fst
          = ws₁.map wait_node_idx := by
        calc ((ws₁.zip gs₁).map fun p => (wait_node_idx p.1, p.2)).map Prod.fst
            = (ws₁.zip gs₁).map (fun p => wait_node_idx p.1) := by
              rw [List.map_map]; rfl
          _ = ((ws₁.zip gs₁).map Prod.fst).map wait_node_idx := by
              rw [List.map_map]; rfl
          _ = ws₁.map wait_node_idx := by rw [hfst]
      rw [this]
      exact hnodup₁
    · exact List.mem_map_of_mem _ hp
  · intro j hj
    rw [_update_output_args_eq_setAll]
    refine setAll_getElem?_not_mem _ _ _ ?_
    intro q hq
    obtain ⟨p, hp, rfl⟩ := List.mem_map.mp hq
    exact hj p.1 (List.of_mem_zip hp).1
  · simp only [_update_output_args]
    rw [List.zip_append hl₁, List.foldl_append]

theorem C6_output_rewriter_frame_witness :
    ([(⟨0, "wait_comm_a", 1⟩ : Node), ⟨1, "wait_comm_b", 1⟩].map Node.id).Nodup
    ∧ ((∀ p ∈ [(⟨0, "wait_comm_a", 1⟩ : Node)].zip [(⟨10, "view_1", 1⟩ : Node)],
        (_update_output_args Node.id [⟨0, "wait_comm_a", 1⟩] [⟨10, "view_1", 1⟩]
          [⟨0, "wait_comm_a", 1⟩, ⟨1, "wait_comm_b", 1⟩, ⟨5, "mm_3", 7⟩])[Node.id p.1]?
          = some p.2)
      ∧ (∀ j, (∀ w ∈ [(⟨0, "wait_comm_a", 1⟩ : Node)], Node.id w ≠ j) →
        (_update_output_args Node.id [⟨0, "wait_comm_a", 1⟩] [⟨10, "view_1", 1⟩]
          [⟨0, "wait_comm_a", 1⟩, ⟨1, "wait_comm_b", 1⟩, ⟨5, "mm_3", 7⟩])[j]?
          = [(⟨0, "wait_comm_a", 1⟩ : Node), ⟨1, "wait_comm_b", 1⟩, ⟨5, "mm_3", 7⟩][j]?)
      ∧ _update_output_args Node.id [⟨1, "wait_comm_b", 1⟩] [⟨11, "view_2", 1⟩]
          (_update_output_args Node.id [⟨0, "wait_comm_a", 1⟩] [⟨10, "view_1", 1⟩]
            [⟨0, "wait_comm_a", 1⟩, ⟨1, "wait_comm_b", 1⟩, ⟨5, "mm_3", 7⟩])
        = _update_output_args Node.id
            ([⟨0, "wait_comm_a", 1⟩] ++ [⟨1, "wait_comm_b", 1⟩])
            ([⟨10, "view_1", 1⟩] ++ [⟨11, "view_2", 1⟩])
            [⟨0, "wait_comm_a", 1⟩, ⟨1, "wait_comm_b", 1⟩, ⟨5, "mm_3", 7⟩]) :=
  ⟨by decide,
   C6_output_rewriter_frame Node.id [⟨0, "wait_comm_a", 1⟩] [⟨10, "view_1", 1⟩]
     [⟨1, "wait_comm_b", 1⟩] [⟨11, "view_2", 1⟩]
     [⟨0, "wait_comm_a", 1⟩, ⟨1, "wait_comm_b", 1⟩, ⟨5, "mm_3", 7⟩]
     (by decide) (by decide) (by decide)⟩

/-- `replacement_mapping[curr_node]` lookup of `_finalize_output_node`
(fusion.py lines 575-583); the dict is written in list order with later
entries overwriting earlier ones, hence the reversed first-match search.
A missing key is a `KeyError`. -/
def lookupNode (m : List (Node × Node)) (k : Node) : Option Node :=
  (m.reverse.find? fun p => p.1 == k).map Prod.snd

/-- The `for i in range(len(fe_list))` loop of `_finalize_output_node`
(fusion.py lines 587-595): slot `start + i` is read (an out-of-range read is
an `IndexError`), `None` slots are skipped, a non-`None` slot must hold a
node whose name starts with `"wait"` (else the assertion fires), and is then
replaced through `replacement_mapping`. -/
def finalizeLoop (replacement_mapping : List (Node × Node)) :
    Nat → Nat → List (Option Node) → Except String (List (Option Node))
  | _, 0, new_output_args => .ok new_output_args
  | index, k + 1, new_output_args =>
    match new_output_args[index]? with
    | none => .error "IndexError"
    | some none => finalizeLoop replacement_mapping (index + 1) k new_output_args
    | some (some curr_node) =>
      if nameStartsWith curr_node.name "wait" then
        match lookupNode replacement_mapping curr_node with
        | some repl =>
          finalizeLoop replacement_mapping (index + 1) k
            (new_output_args.set index (some repl))
        | none => .error "KeyError"
      else .error "Non comm gradient output tensor incorrectly handled...needs fix."

/-- `_finalize_output_node` (fusion.py lines 565-597): builds the
wait-to-gradient replacement mapping for the group, then rewrites slots
`start + i` of the output argument list. -/
def _finalize_output_node (fe_wait_nodes fe_grad_nodes : List Node)
    (start : Nat) (new_output_args : List (Option Node)) :
    Except String (List (Option Node)) :=
  finalizeLoop (fe_wait_nodes.zip fe_grad_nodes) start fe_wait_nodes.length
    new_output_args

/-- C7 is false as stated: the cat and JIT strategies' output rewriter
(`_update_output_args`, fusion.py lines 841-851) performs no wait-node check.
At this concrete input the targeted slot 0 holds `add_1`, whose name does not
start with `"wait"`, yet the rewriter silently overwrites the slot instead of
failing. -/
theorem C7_counterexample_silent_overwrite :
    nameStartsWith ((⟨2, "add_1", 0⟩ : Node)).name "wait" = false
    ∧ _update_output_args (fun _ => 0) [⟨1, "wait_comm_a", 1⟩] [⟨3, "view_2", 1⟩]
        [⟨2, "add_1", 0⟩] = [⟨3, "view_2", 1⟩] := by
  exact ⟨by decide, by decide⟩

/-- C7 amended: only the ring strategy's rewriter (`_finalize_output_node`)
fails with an assertion when a targeted non-`None` slot does not hold a
wait-node; the cat/JIT rewriter (`_update_output_args`) performs no such
check and overwrites the targeted slot unconditionally. -/
theorem C7_amended_only_ring_asserts
    (fe_wait_nodes fe_grad_nodes : List Node) (start : Nat)
    (new_output_args : List (Option Node)) (curr_node : Node)
    (hne : fe_wait_nodes ≠ [])
    (hslot : new_output_args[start]? = some (some curr_node))
    (hname : nameStartsWith curr_node.name "wait" = false) :
    _finalize_output_node fe_wait_nodes fe_grad_nodes start new_output_args
      = .error "Non comm gradient output tensor incorrectly handled...needs fix."
    ∧ ∀ (wait_node_idx : Node → Nat) (w g : Node) (args : List Node),
        _update_output_args wait_node_idx [w] [g] args
          = args.set (wait_node_idx w) g := by
  constructor
  · obtain ⟨w, ws, rfl⟩ := List.exists_cons_of_ne_nil hne
    simp only [_finalize_output_node, List.length_cons, finalizeLoop, hslot, hname]
    simp
  · intro wait_node_idx w g args
    rfl

theorem C7_amended_only_ring_asserts_witness :
    ([(⟨1, "wait_comm_a", 1⟩ : Node)] ≠ ([] : List Node))
    ∧ ([some (⟨2, "add_1", 0⟩ : Node)][0]? = some (some (⟨2, "add_1", 0⟩ : Node)))
    ∧ (nameStartsWith ((⟨2, "add_1", 0⟩ : Node)).name "wait" = false)
    ∧ (_finalize_output_node [⟨1, "wait_comm_a", 1⟩] [⟨3, "view_2", 1⟩] 0
          [some ⟨2, "add_1", 0⟩]
        = .error "Non comm gradient output tensor incorrectly handled...needs fix."
      ∧ ∀ (wait_node_idx : Node → Nat) (w g : Node) (args : List Node),
          _update_output_args wait_node_idx [w] [g] args
            = args.set (wait_node_idx w) g) :=
  ⟨by decide, by decide, by decide,
   C7_amended_only_ring_asserts [⟨1, "wait_comm_a", 1⟩] [⟨3, "view_2", 1⟩] 0
     [some ⟨2, "add_1", 0⟩] ⟨2, "add_1", 0⟩ (by decide) (by decide) (by decide)⟩

/-! ## Last-gradient selection (C8) -/

/-- Python `max` over a non-empty list of naturals (folding from 0 agrees
with `max` on any non-empty list). -/
def pyMax (l : List Nat) : Nat :=
  l.foldl Nat.max 0

/-- Python `list.index`: position of the first occurrence. -/
def pyIndex : List Nat → Nat → Nat
  | [], _ => 0
  | a :: t, x => if a = x then 0 else pyIndex t x + 1

/-- `grad_indices_mapping` (fusion.py lines 930-935, likewise 311-316 and
772-777): look each group member's actual gradient node up in
`gi.actual_grad_index_mapping`. -/
def grad_indices_mapping (actual_grad_index_mapping : Node → Nat)
    (grad_nodes : List Node) : List Nat :=
  grad_nodes.map actual_grad_index_mapping

/-- `_get_last_grad_node_from_fe_group` (fusion.py lines 918-939):
`grad_index_mapping.index(max(grad_index_mapping))`, the group-list index of
the member whose actual gradient sits last in program order.  The same
argmax is computed inline by `_copy_fe_to_buffer` (line 318) and
`_fuse_with_cat` (line 778). -/
def _get_last_grad_node_from_fe_group (actual_grad_index_mapping : Node → Nat)
    (grad_nodes : List Node) : Nat :=
  pyIndex (grad_indices_mapping actual_grad_index_mapping grad_nodes)
    (pyMax (grad_indices_mapping actual_grad_index_mapping grad_nodes))

theorem foldl_max_mem : ∀ (l : List Nat) (a : Nat), l.foldl Nat.max a ∈ a :: l := by
  intro l
  induction l with
  | nil => intro a; simp
  | cons x t ih =>
    intro a
    have h := ih (Nat.max a x)
    simp only [List.foldl_cons]
    rcases List.mem_cons.mp h with h1 | h1
    · have hax : a.max x = a ∨ a.max x = x := by
        rcases Nat.le_total a x with hle | hle
        · exact Or.inr (Nat.max_eq_right hle)
        · exact Or.inl (Nat.max_eq_left hle)
      rcases hax with hm | hm
      · rw [h1, hm]
        exact List.mem_cons_self _ _
      · rw [h1, hm]
        exact List.mem_cons_of_mem _ (List.mem_cons_self _ _)
    · exact List.mem_cons_of_mem _ (List.mem_cons_of_mem _ h1)

theorem le_foldl_max : ∀ (l : List Nat) (a : Nat), a ≤ l.foldl Nat.max a := by
  intro l
  induction l with
  | nil => intro a; simp
  | cons x t ih =>
    intro a
    exact le_trans (Nat.le_max_left a x) (ih (Nat.max a x))

theorem mem_le_foldl_max : ∀ (l : List Nat) (a x : Nat), x ∈ l → x ≤ l.foldl Nat.max a := by
  intro l
  induction l with
  | nil => intro a x hx; simp at hx
  | cons y t ih =>
    intro a x hx
    rcases List.mem_cons.mp hx with rfl | hx
    · exact le_trans (Nat.le_max_right a x) (le_foldl_max t (Nat.max a x))
    · exact ih (Nat.max a y) x hx

theorem pyMax_mem (l : List Nat) (h : l ≠ []) : pyMax l ∈ l := by
  rcases List.mem_cons.mp (foldl_max_mem l 0) with h0 | h0
  · obtain ⟨a, t, rfl⟩ := List.exists_cons_of_ne_nil h
    have hle : a ≤ pyMax (a :: t) :=
      mem_le_foldl_max (a :: t) 0 a (List.mem_cons_self a t)
    have hz : pyMax (a :: t) = 0 := h0
    have ha : a = 0 := by omega
    rw [hz, ← ha]
    exact List.mem_cons_self a t
  · exact h0

theorem pyMax_ge (l : List Nat) (x : Nat) (hx : x ∈ l) : x ≤ pyMax l :=
  mem_le_foldl_max l 0 x hx

theorem pyIndex_lt (l : List Nat) (x : Nat) (hx : x ∈ l) :
    pyIndex l x < l.length := by
  induction l with
  | nil => simp at hx
  | cons a t ih =>
    by_cases h : a = x
    · simp [pyIndex, h]
    · have hx' : x ∈ t := by
        rcases List.mem_cons.mp hx with rfl | hx'
        · exact absurd rfl h
        · exact hx'
      simp only [pyIndex, if_neg h, List.length_cons]
      exact Nat.succ_lt_succ (ih hx')

theorem get_pyIndex (l : List Nat) (x : Nat) (hx : x ∈ l) :
    ∀ h : pyIndex l x < l.length, l.get ⟨pyIndex l x, h⟩ = x := by
  induction l with
  | nil => simp at hx
  | cons a t ih =>
    intro h
    by_cases ha : a = x
    · simp [pyIndex, ha]
    · rcases List.mem_cons.mp hx with rfl | hx
      · exact absurd rfl ha
      · simp only [pyIndex, if_neg ha, List.length_cons] at h ⊢
        simpa using ih hx (by omega)

/-- C8: the group member chosen as splice anchor is the one whose actual
gradient has the maximal position in `gi.actual_grad_index_mapping` — the
last-produced gradient in program order.  The index returned by
`_get_last_grad_node_from_fe_group` is in range, the selected member's mapped
position dominates every group member's, and whenever the scan-list-last
member's gradient is not at the maximal position the selection differs from
the last list index (so the anchor is never merely the last element in scan
order). -/
theorem C8_splice_after_last_produced_gradient
    (actual_grad_index_mapping : Node → Nat) (grad_nodes : List Node)
    (hne : grad_nodes ≠ []) :
    ∃ h : _get_last_grad_node_from_fe_group actual_grad_index_mapping grad_nodes
        < grad_nodes.length,
      (∀ n ∈ grad_nodes,
        actual_grad_index_mapping n
          ≤ actual_grad_index_mapping (grad_nodes.get
              ⟨_get_last_grad_node_from_fe_group actual_grad_index_mapping grad_nodes, h⟩))
      ∧ (actual_grad_index_mapping (grad_nodes.getLast hne)
            < pyMax (grad_indices_mapping actual_grad_index_mapping grad_nodes) →
          _get_last_grad_node_from_fe_group actual_grad_index_mapping grad_nodes
            ≠ grad_nodes.length - 1) := by
  have hmlne : grad_nodes.map actual_grad_index_mapping ≠ [] := by
    simpa using hne
  have hmem : pyMax (grad_nodes.map actual_grad_index_mapping)
      ∈ grad_nodes.map actual_grad_index_mapping :=
    pyMax_mem _ hmlne
  have hidx : pyIndex (grad_nodes.map actual_grad_index_mapping)
      (pyMax (grad_nodes.map actual_grad_index_mapping))
      < (grad_nodes.map actual_grad_index_mapping).length :=
    pyIndex_lt _ _ hmem
  have hlt : _get_last_grad_node_from_fe_group actual_grad_index_mapping grad_nodes
      < grad_nodes.length := by
    simpa [_get_last_grad_node_from_fe_group, grad_indices_mapping] using hidx
  have hget : (grad_nodes.map actual_grad_index_mapping).get
      ⟨pyIndex (grad_nodes.map actual_grad_index_mapping)
        (pyMax (grad_nodes.map actual_grad_index_mapping)), hidx⟩
      = pyMax (grad_nodes.map actual_grad_index_mapping) :=
    get_pyIndex _ _ hmem hidx
  have hsel : actual_grad_index_mapping (grad_nodes.get
        ⟨_get_last_grad_node_from_fe_group actual_grad_index_mapping grad_nodes, hlt⟩)
      = pyMax (grad_nodes.map actual_grad_index_mapping) := by
    have h2 : (grad_nodes.map actual_grad_index_mapping).get
        ⟨_get_last_grad_node_from_fe_group actual_grad_index_mapping grad_nodes,
          by simpa using hlt⟩
        = actual_grad_index_mapping (grad_nodes.get
            ⟨_get_last_grad_node_from_fe_group actual_grad_index_mapping grad_nodes,
              hlt⟩) :=
      List.get_map ..
    rw [← h2]
    exact hget
  refine ⟨hlt, ?_, ?_⟩
  · intro n hn
    rw [hsel]
    exact pyMax_ge _ _ (List.mem_map_of_mem _ hn)
  · intro hlast hcon
    have hlast' : actual_grad_index_mapping (grad_nodes.getLast hne)
        < pyMax (grad_nodes.map actual_grad_index_mapping) := hlast
    have hgetlast : grad_nodes.get
        ⟨_get_last_grad_node_from_fe_group actual_grad_index_mapping grad_nodes, hlt⟩
        = grad_nodes.getLast hne := by
      rw [List.getLast_eq_get]
      exact congrArg grad_nodes.get (Fin.ext (by simpa using hcon))
    rw [hgetlast] at hsel
    omega

theorem C8_splice_after_last_produced_gradient_witness :
    ([(⟨0, "clone_1", 4⟩ : Node), ⟨1, "clone_2", 4⟩] ≠ ([] : List Node))
    ∧ ∃ h : _get_last_grad_node_from_fe_group Node.numel
          [⟨0, "clone_1", 9⟩, ⟨1, "clone_2", 4⟩]
        < ([(⟨0, "clone_1", 9⟩ : Node), ⟨1, "clone_2", 4⟩]).length,
      (∀ n ∈ [(⟨0, "clone_1", 9⟩ : Node), ⟨1, "clone_2", 4⟩],
        Node.numel n ≤ Node.numel (([(⟨0, "clone_1", 9⟩ : Node), ⟨1, "clone_2", 4⟩]).get
          ⟨_get_last_grad_node_from_fe_group Node.numel
            [⟨0, "clone_1", 9⟩, ⟨1, "clone_2", 4⟩], h⟩))
      ∧ (Node.numel (([(⟨0, "clone_1", 9⟩ : Node), ⟨1, "clone_2", 4⟩]).getLast (by decide))
            < pyMax (grad_indices_mapping Node.numel
                [⟨0, "clone_1", 9⟩, ⟨1, "clone_2", 4⟩]) →
          _get_last_grad_node_from_fe_group Node.numel
              [⟨0, "clone_1", 9⟩, ⟨1, "clone_2", 4⟩]
            ≠ ([(⟨0, "clone_1", 9⟩ : Node), ⟨1, "clone_2", 4⟩]).length - 1) :=
  ⟨by decide,
   C8_splice_after_last_produced_gradient Node.numel
     [⟨0, "clone_1", 9⟩, ⟨1, "clone_2", 4⟩] (by decide)⟩

/-! ## Graph-level model and strategy entry points (C4, C9) -/

/-- The input graph as the pass reads it: the nodes in program order and the
argument list of the graph's output node. -/
structure FGraph where
  nodes : List Node
  outputArgs : List Node
deriving DecidableEq, Repr

/-- Association-list update with Python-dict semantics: a later write to an
existing key overwrites its value, a new key is appended. -/
def assocSet (m : List (Node × Nat)) (k : Node) (v : Nat) : List (Node × Nat) :=
  if m.any fun p => p.1 == k then
    m.map fun p => if p.1 == k then (k, v) else p
  else m ++ [(k, v)]

/-- `gi.wait_node_idx` as built by `GraphInfo.update_info` (fusion.py lines
137-142): enumerate the output node's arguments and record, for each argument
whose name starts with `"wait_comm"`, its positional index. -/
def wait_node_idx (output_args : List Node) : List (Node × Nat) :=
  output_args.enum.foldl
    (fun m p =>
      if nameStartsWith p.2.name "wait_comm" then assocSet m p.2 p.1 else m)
    []

/-- `_scan_graph_for_fusion_elements` (fusion.py lines 199-236) at the
granularity the entry-point claims need: the scanner produces one
`FusionElement` per graph node whose name starts with `"wait_comm"`, in
program order (the comm-block walk around each wait node is
`get_comm_block_nodes` from `graph_utils`). -/
def _scan_graph_for_fusion_elements (g : FGraph) : List Node :=
  g.nodes.filter fun n => nameStartsWith n.name "wait_comm"

/-- `run_fuse_communication_ring` (fusion.py lines 644-724) up to its main
fusion loop: the `fusion_length > 1` assertion, the empty-graph check of
`update_info`, the `peak_memory_required > 0` assertion, buffer creation
(which needs at least one ring buffer), and the
`len(wait_node_idx) == len(fe_list)` assertion; on success the groups the
main loop would fuse. -/
def run_fuse_communication_ring (g : FGraph)
    (fusion_length ring_num_buffers : Nat) :
    Except String (List (List Node)) :=
  if fusion_length ≤ 1 then
    .error "fusion policy requires > 1 for actual fusion."
  else if g.nodes.length = 0 then
    .error "Empty graph passed in...."
  else if _determine_peak_memory
      ((_scan_graph_for_fusion_elements g).map Node.numel) fusion_length = 0 then
    .error "failed to compute effective peak memory"
  else if ring_num_buffers = 0 then
    .error "failed to create buffer node"
  else if (wait_node_idx g.outputArgs).length
      = (_scan_graph_for_fusion_elements g).length then
    .ok (chunkList (_scan_graph_for_fusion_elements g) fusion_length)
  else
    .error "The expected wait_nodes in graph_info are different from fe_list"

/-- `run_fuse_communication_cat` (fusion.py lines 853-900) up to its fusion
loop: no `fusion_length` validation at all — only the empty-graph check and
the wait-count assertion guard the loop. -/
def run_fuse_communication_cat (g : FGraph) (fusion_length : Nat) :
    Except String (List (List Node)) :=
  if g.nodes.length = 0 then
    .error "Empty graph passed in...."
  else if (wait_node_idx g.outputArgs).length
      = (_scan_graph_for_fusion_elements g).length then
    .ok (chunkList (_scan_graph_for_fusion_elements g) fusion_length)
  else
    .error "The expected wait_nodes in graph_info is different from fe_list"

/-- `run_fuse_communication_jit` (fusion.py lines 1090-1170) up to its fusion
loop: again no `fusion_length` validation — the empty-graph check, the
wait-count assertion, then byte-budget grouping. -/
def run_fuse_communication_jit (g : FGraph) (fusion_length : Nat) :
    Except String (List (List Node)) :=
  if g.nodes.length = 0 then
    .error "Empty graph passed in...."
  else if (wait_node_idx g.outputArgs).length
      = (_scan_graph_for_fusion_elements g).length then
    .ok (jitGroups Node.numel (_scan_graph_for_fusion_elements g) fusion_length)
  else
    .error "The expected wait_nodes in graph_info are different from the fe_list"

/-- A well-formed single-element input graph: one gradient, its clone, the
two tensor-constant arguments, the comm node and the wait node, whose wait
node is also the sole output argument. -/
def exampleGraph : FGraph :=
  ⟨[⟨0, "mm_1", 6⟩, ⟨1, "clone_1", 6⟩, ⟨2, "_tensor_constant0", 0⟩,
    ⟨3, "_tensor_constant1", 0⟩, ⟨4, "allreduce__default", 6⟩,
    ⟨5, "wait_comm_default", 6⟩],
   [⟨5, "wait_comm_default", 6⟩]⟩

/-- C4 is false as stated: only the ring entry point validates
`fusion_length`.  On a well-formed one-element graph, the concatenation and
just-in-time entry points accept `fusionLength = 1` and proceed to fuse
(each returning the single fusion group) instead of rejecting it. -/
theorem C4_counterexample_cat_jit_accept_one :
    run_fuse_communication_cat exampleGraph 1
      = .ok [[⟨5, "wait_comm_default", 6⟩]]
    ∧ run_fuse_communication_jit exampleGraph 1
      = .ok [[⟨5, "wait_comm_default", 6⟩]] := by
  exact ⟨rfl, rfl⟩

/-- C4 amended: a `fusionLength` of 1 or less is rejected at entry — before
any graph mutation — by the ring-buffer entry point only; the concatenation
and just-in-time entry points perform no `fusionLength` validation and (for
example at `fusionLength = 1`) proceed to fuse. -/
theorem C4_amended_only_ring_validates (g : FGraph)
    (fusion_length ring_num_buffers : Nat) (h : fusion_length ≤ 1) :
    run_fuse_communication_ring g fusion_length ring_num_buffers
      = .error "fusion policy requires > 1 for actual fusion."
    ∧ run_fuse_communication_cat exampleGraph 1
      = .ok [[⟨5, "wait_comm_default", 6⟩]]
    ∧ run_fuse_communication_jit exampleGraph 1
      = .ok [[⟨5, "wait_comm_default", 6⟩]] := by
  refine ⟨?_, rfl, rfl⟩
  rw [run_fuse_communication_ring, if_pos h]

theorem C4_amended_only_ring_validates_witness :
    1 ≤ 1
    ∧ (run_fuse_communication_ring exampleGraph 1 2
        = .error "fusion policy requires > 1 for actual fusion."
      ∧ run_fuse_communication_cat exampleGraph 1
        = .ok [[⟨5, "wait_comm_default", 6⟩]]
      ∧ run_fuse_communication_jit exampleGraph 1
        = .ok [[⟨5, "wait_comm_default", 6⟩]]) :=
  ⟨by decide, C4_amended_only_ring_validates exampleGraph 1 2 (by decide)⟩

/-- C9: every strategy entry point asserts, before its fusion loop, that the
number of wait nodes registered from the output argument list (names starting
with `"wait_comm"`) equals the number of elements the scanner found; a graph
on which the two counts differ makes all three entry points abort. -/
theorem C9_wait_count_precondition (g : FGraph)
    (fusion_length ring_num_buffers : Nat)
    (h : (wait_node_idx g.outputArgs).length
      ≠ (_scan_graph_for_fusion_elements g).length) :
    (∃ e, run_fuse_communication_ring g fusion_length ring_num_buffers
      = .error e)
    ∧ (∃ e, run_fuse_communication_cat g fusion_length = .error e)
    ∧ (∃ e, run_fuse_communication_jit g fusion_length = .error e) := by
  refine ⟨?_, ?_, ?_⟩
  · rw [run_fuse_communication_ring]
    split_ifs <;> exact ⟨_, rfl⟩
  · rw [run_fuse_communication_cat]
    split_ifs <;> exact ⟨_, rfl⟩
  · rw [run_fuse_communication_jit]
    split_ifs <;> exact ⟨_, rfl⟩

theorem C9_wait_count_precondition_witness :
    (wait_node_idx (FGraph.outputArgs ⟨[⟨0, "mm_1", 2⟩, ⟨1, "wait_comm_a", 3⟩], []⟩)).length
      ≠ (_scan_graph_for_fusion_elements ⟨[⟨0, "mm_1", 2⟩, ⟨1, "wait_comm_a", 3⟩], []⟩).length
    ∧ ((∃ e, run_fuse_communication_ring ⟨[⟨0, "mm_1", 2⟩, ⟨1, "wait_comm_a", 3⟩], []⟩ 2 2
        = .error e)
      ∧ (∃ e, run_fuse_communication_cat ⟨[⟨0, "mm_1", 2⟩, ⟨1, "wait_comm_a", 3⟩], []⟩ 2
        = .error e)
      ∧ (∃ e, run_fuse_communication_jit ⟨[⟨0, "mm_1", 2⟩, ⟨1, "wait_comm_a", 3⟩], []⟩ 2
        = .error e)) :=
  ⟨by decide,
   C9_wait_count_precondition ⟨[⟨0, "mm_1", 2⟩, ⟨1, "wait_comm_a", 3⟩], []⟩ 2 2 (by decide)⟩

/-! ## Value-level semantics of the three strategies (C1)

The strategies are embedded at the value level: what each synthesized
subgraph computes on tensor data.  A staging buffer is a flat list whose
initial content is arbitrary (`torch.empty`); the all-reduce of a fused
buffer adds, position by position, the peers' contribution, which on the
group's layout is the concatenation of the members' contributions because
every rank runs the same rewritten graph (same grouping, same offsets). -/

/-- `buffer_size_needed = sum([item.size for item in copy_list])`
(fusion.py line 959). -/
def groupNumel (g : List FusionElement) : Nat :=
  (g.map FusionElement.size).sum

/-- One slice assignment `concat_buffer[offset : offset + size] = t.view(-1)`
(fusion.py line 258), equally one `aten.copy_` of a flattened gradient into
`aten.slice(buffer, 0, start, stop)` (lines 979-995). -/
def writeAt (b : List Val) (off : Nat) (t : List Val) : List Val :=
  b.take off ++ t ++ b.drop (off + t.length)

/-- The offset loop of the traced `copy_to_buffer` helper (fusion.py lines
252-260) and of `_fuse_with_jit`'s view/slice/copy_ chain (lines 972-998):
write each flattened gradient at consecutive offsets. -/
def copy_to_buffer (b : List Val) (off : Nat) : List (List Val) → List Val
  | [] => b
  | t :: ts => copy_to_buffer (writeAt b off t) (off + t.length) ts

/-- `_copy_fe_to_buffer` (fusion.py lines 239-374) at the value level: the
group members' gradients are copied into the acquired ring buffer at
consecutive offsets. -/
def _copy_fe_to_buffer (buffer : List Val) (copy_list : List FusionElement) :
    List Val :=
  copy_to_buffer buffer 0 (copy_list.map FusionElement.grad)

/-- The offset loop of the traced `scatter_from_buffer` helper (fusion.py
lines 416-425) and of `_scatter_results_jit` (lines 1054-1080): per element,
the slice `buffer[offset : offset + numel]` viewed at the element's original
shape (for the ring strategy the view is then copied into the element's
gradient tensor, which the output rewriter exposes; for JIT the view itself
is the result). -/
def scatter_from_buffer (buffer : List Val) : Nat → List FusionElement → List Tensor
  | _, [] => []
  | off, fe :: rest =>
    ⟨fe.shape, (buffer.drop off).take fe.size⟩
      :: scatter_from_buffer buffer (off + fe.size) rest

/-- `_scatter_results_from_buffer` (fusion.py lines 405-506) at the value
level. -/
def _scatter_results_from_buffer (reduced : List Val)
    (fe_list : List FusionElement) : List Tensor :=
  scatter_from_buffer reduced 0 fe_list

/-- Peers' contribution to a fused buffer: the members' contributions at the
group's offsets, then (for a ring buffer larger than the group) whatever the
peers' unwritten buffer regions hold. -/
def groupPeers (g : List FusionElement) (tail : List Val) : List Val :=
  (g.map FusionElement.peers).flatten ++ tail

/-- One ring-strategy group (fusion.py lines 705-707): copy into the acquired
buffer, all-reduce the buffer, scatter the slices back. -/
def ringGroupResult (buffer tail : List Val) (g : List FusionElement) :
    List Tensor :=
  _scatter_results_from_buffer
    (allReduce (_copy_fe_to_buffer buffer g) (groupPeers g tail)) g

/-- The ring strategy's sequential group loop (fusion.py lines 701-716);
`bufferAt k` is the content of the ring buffer acquired for group `k` at
acquisition time (arbitrary: fresh `torch.empty` garbage or leftovers from an
earlier group that reused the slot — the copies overwrite the whole region a
group reads). -/
def ringLoop (bufferAt tailAt : Nat → List Val) :
    Nat → List (List FusionElement) → List Tensor
  | _, [] => []
  | k, g :: gs =>
    ringGroupResult (bufferAt k) (tailAt k) g ++ ringLoop bufferAt tailAt (k + 1) gs

/-- Final per-element output values of `run_fuse_communication_ring`, in scan
order (the output rewriter exposes each element's scattered gradient tensor,
fusion.py lines 709-716). -/
def fusedOutputsRing (fes : List FusionElement) (fusion_length : Nat)
    (bufferAt tailAt : Nat → List Val) : List Tensor :=
  ringLoop bufferAt tailAt 0 (chunkList fes fusion_length)

/-- `_fuse_with_cat` (fusion.py lines 763-812) at the value level:
`torch.flatten` each member's gradient and `torch.cat` them; the group's comm
node is redirected to the cat node. -/
def _fuse_with_cat (g : List FusionElement) : List Val :=
  (g.map FusionElement.grad).flatten

/-- `torch.split(wait_node, scatter_sizes)` (fusion.py lines 822-825). -/
def splitSizes : List Val → List Nat → List (List Val)
  | _, [] => []
  | l, n :: ns => l.take n :: splitSizes (l.drop n) ns

/-- `_scatter_results` (fusion.py lines 815-838) at the value level: split
the reduced cat by the members' sizes and reshape each piece to its original
shape. -/
def _scatter_results (wait_value : List Val)
    (scatter_list : List FusionElement) : List Tensor :=
  (scatter_list.zip (splitSizes wait_value (scatter_list.map FusionElement.size))).map
    fun p => ⟨p.1.shape, p.2⟩

/-- One cat-strategy group (fusion.py lines 885-895): cat, all-reduce, split
and reshape. -/
def catGroupResult (g : List FusionElement) : List Tensor :=
  _scatter_results
    (allReduce (_fuse_with_cat g) (g.map FusionElement.peers).flatten) g

/-- Final per-element output values of `run_fuse_communication_cat`, in scan
order. -/
def fusedOutputsCat (fes : List FusionElement) (fusion_length : Nat) :
    List Tensor :=
  ((chunkList fes fusion_length).map catGroupResult).flatten

/-- `_fuse_with_jit` (fusion.py lines 942-1026) at the value level: a fresh
buffer of exactly the group's total element count (`torch.empty`, arbitrary
initial content `emptyMem n` of length `n`), filled by view/slice/copy_
writes at consecutive offsets. -/
def _fuse_with_jit (emptyMem : Nat → List Val)
    (copy_list : List FusionElement) : List Val :=
  copy_to_buffer (emptyMem (groupNumel copy_list)) 0
    (copy_list.map FusionElement.grad)

/-- `_scatter_results_jit` (fusion.py lines 1029-1087) at the value level:
per element a slice of the reduced buffer viewed at the original shape,
returned as the element's result (an alias into the buffer). -/
def _scatter_results_jit (reduced : List Val)
    (scatter_list : List FusionElement) : List Tensor :=
  scatter_from_buffer reduced 0 scatter_list

/-- One JIT-strategy group (fusion.py lines 1131-1142). -/
def jitGroupResult (emptyMem : Nat → List Val) (tail : List Val)
    (g : List FusionElement) : List Tensor :=
  _scatter_results_jit
    (allReduce (_fuse_with_jit emptyMem g) (groupPeers g tail)) g

/-- The JIT strategy's sequential group loop (fusion.py lines 1125-1164). -/
def jitLoop (emptyMem tailAt : Nat → List Val) :
    Nat → List (List FusionElement) → List Tensor
  | _, [] => []
  | k, g :: gs =>
    jitGroupResult emptyMem (tailAt k) g ++ jitLoop emptyMem tailAt (k + 1) gs

/-- Final per-element output values of `run_fuse_communication_jit`, in scan
order. -/
def fusedOutputsJit (fes : List FusionElement) (fusion_length : Nat)
    (emptyMem tailAt : Nat → List Val) : List Tensor :=
  jitLoop emptyMem tailAt 0 (jitGroups FusionElement.size fes fusion_length)

theorem writeAt_length (b : List Val) (off : Nat) (t : List Val)
    (h : off + t.length ≤ b.length) : (writeAt b off t).length = b.length := by
  simp only [writeAt, List.length_append, List.length_take, List.length_drop]
  omega

theorem copy_to_buffer_spec :
    ∀ (ts : List (List Val)) (b : List Val) (off : Nat),
      off + (ts.map List.length).sum ≤ b.length →
      copy_to_buffer b off ts
        = b.take off ++ ts.flatten ++ b.drop (off + (ts.map List.length).sum) := by
  intro ts
  induction ts with
  | nil =>
    intro b off h
    simp [copy_to_buffer, List.take_append_drop]
  | cons t rest ih =>
    intro b off h
    simp only [List.map_cons, List.sum_cons] at h
    have hoff : off + t.length ≤ b.length := by omega
    have hwlen : (writeAt b off t).length = b.length := writeAt_length b off t hoff
    have h1 : (b.take off ++ t).length = off + t.length := by
      simp only [List.length_append, List.length_take]
      omega
    have htake : (writeAt b off t).take (off + t.length) = b.take off ++ t := by
      rw [writeAt]
      exact List.take_left' h1
    have hdrop : ∀ s : Nat,
        (writeAt b off t).drop (off + t.length + s) = b.drop (off + t.length + s) := by
      intro s
      rw [writeAt]
      calc ((b.take off ++ t) ++ b.drop (off + t.length)).drop (off + t.length + s)
          = (((b.take off ++ t) ++ b.drop (off + t.length)).drop (off + t.length)).drop s :=
            (List.drop_drop ..).symm
        _ = (b.drop (off + t.length)).drop s := by rw [List.drop_left' h1]
        _ = b.drop (off + t.length + s) := List.drop_drop ..
    rw [copy_to_buffer, ih (writeAt b off t) (off + t.length) (by omega)]
    rw [htake, hdrop ((rest.map List.length).sum)]
    have harith : off + t.length + (rest.map List.length).sum
        = off + (t.length + (rest.map List.length).sum) := by omega
    rw [harith]
    simp [List.append_assoc]

theorem reducedData_length (fe : FusionElement) (hwf : fe.wf) :
    fe.reducedData.length = fe.size := by
  obtain ⟨hg, hp, _⟩ := hwf
  simp [FusionElement.reducedData, allReduce, List.length_zipWith, hg, hp]

theorem grads_flatten_length (g : List FusionElement)
    (hwf : ∀ fe ∈ g, fe.wf) :
    (g.map FusionElement.grad).flatten.length = groupNumel g := by
  rw [List.length_flatten, groupNumel, List.map_map]
  refine congrArg List.sum (List.map_congr_left ?_)
  intro fe hfe
  exact (hwf fe hfe).1

theorem peers_flatten_length (g : List FusionElement)
    (hwf : ∀ fe ∈ g, fe.wf) :
    (g.map FusionElement.peers).flatten.length = groupNumel g := by
  rw [List.length_flatten, groupNumel, List.map_map]
  refine congrArg List.sum (List.map_congr_left ?_)
  intro fe hfe
  exact (hwf fe hfe).2.1

/-- All-reducing a concatenation of gradients is the concatenation of the
all-reduced gradients (elementwise addition distributes over `++`). -/
theorem allReduce_flatten (g : List FusionElement) (hwf : ∀ fe ∈ g, fe.wf) :
    allReduce (g.map FusionElement.grad).flatten (g.map FusionElement.peers).flatten
      = (g.map FusionElement.reducedData).flatten := by
  induction g with
  | nil => simp [allReduce]
  | cons fe rest ih =>
    have hfe := hwf fe (List.mem_cons_self fe rest)
    simp only [List.map_cons, List.flatten_cons]
    rw [allReduce, List.zipWith_append _ _ _ _ _ (hfe.1.trans hfe.2.1.symm)]
    rw [← allReduce, ← allReduce,
      ih fun x hx => hwf x (List.mem_cons_of_mem fe hx)]
    rfl

/-- Scattering from a buffer whose content from offset `pre.length` on is the
concatenation of the group's reduced gradients recovers exactly the per-member
reduced tensors. -/
theorem scatter_from_buffer_spec :
    ∀ (g : List FusionElement) (pre rest : List Val),
      (∀ fe ∈ g, fe.wf) →
      scatter_from_buffer (pre ++ (g.map FusionElement.reducedData).flatten ++ rest)
        pre.length g = g.map FusionElement.reduced := by
  intro g
  induction g with
  | nil => intro pre rest _; simp [scatter_from_buffer]
  | cons fe grest ih =>
    intro pre rest hwf
    have hfe := hwf fe (List.mem_cons_self fe grest)
    have hlen : fe.reducedData.length = fe.size := reducedData_length fe hfe
    simp only [List.map_cons, List.flatten_cons, scatter_from_buffer]
    have hbuf : pre ++ (fe.reducedData ++ (grest.map FusionElement.reducedData).flatten) ++ rest
        = (pre ++ fe.reducedData) ++ (grest.map FusionElement.reducedData).flatten ++ rest := by
      simp [List.append_assoc]
    congr 1
    · -- the head slice is exactly this member's reduced data
      have hdrop : (pre ++ (fe.reducedData ++ (grest.map FusionElement.reducedData).flatten) ++ rest).drop
          pre.length
          = fe.reducedData ++ ((grest.map FusionElement.reducedData).flatten ++ rest) := by
        rw [hbuf, List.append_assoc, List.append_assoc]
        exact List.drop_left' rfl
      rw [hdrop, List.take_left' hlen]
      rfl
    · -- the tail is the recursive scatter at the shifted offset
      have hoff : pre.length + fe.size = (pre ++ fe.reducedData).length := by
        simp [hlen]
      rw [hbuf, hoff]
      exact ih (pre ++ fe.reducedData) rest
        fun x hx => hwf x (List.mem_cons_of_mem fe hx)

/-- Shared core of the ring and JIT strategies: copying the group into a
sufficiently large buffer, all-reducing it, and scattering the slices back
yields exactly the group's reduced tensors; the buffer's initial content and
any bytes past the group's region are irrelevant. -/
theorem buffer_group_spec (buffer tail : List Val) (g : List FusionElement)
    (hwf : ∀ fe ∈ g, fe.wf) (hcap : groupNumel g ≤ buffer.length) :
    _scatter_results_from_buffer
      (allReduce (_copy_fe_to_buffer buffer g) (groupPeers g tail)) g
      = g.map FusionElement.reduced := by
  have hflat : ((g.map FusionElement.grad).map List.length).sum = groupNumel g := by
    have := grads_flatten_length g hwf
    rwa [List.length_flatten] at this
  have hflat2 : (List.map (List.length ∘ FusionElement.grad) g).sum = groupNumel g := by
    rw [← List.map_map]
    exact hflat
  have hcopy : _copy_fe_to_buffer buffer g
      = (g.map FusionElement.grad).flatten ++ buffer.drop (groupNumel g) := by
    rw [_copy_fe_to_buffer,
      copy_to_buffer_spec (g.map FusionElement.grad) buffer 0 (by omega)]
    simp [hflat, hflat2]
  have hlen1 : (g.map FusionElement.grad).flatten.length
      = (g.map FusionElement.peers).flatten.length :=
    (grads_flatten_length g hwf).trans (peers_flatten_length g hwf).symm
  rw [hcopy, groupPeers, allReduce,
    List.zipWith_append _ _ _ _ _ hlen1, ← allReduce, allReduce_flatten g hwf]
  have := scatter_from_buffer_spec g []
    (List.zipWith (· + ·) (buffer.drop (groupNumel g)) tail) hwf
  simpa using this

theorem splitSizes_flatten :
    ∀ ds : List (List Val), splitSizes ds.flatten (ds.map List.length) = ds := by
  intro ds
  induction ds with
  | nil => simp [splitSizes]
  | cons d rest ih =>
    simp only [List.flatten_cons, List.map_cons, splitSizes]
    rw [List.take_left' rfl, List.drop_left' rfl, ih]

theorem zip_map_reduced :
    ∀ g : List FusionElement,
      (g.zip (g.map FusionElement.reducedData)).map
          (fun p => (⟨p.1.shape, p.2⟩ : Tensor))
        = g.map FusionElement.reduced := by
  intro g
  induction g with
  | nil => rfl
  | cons fe rest ih =>
    simp only [List.map_cons, List.zip_cons_cons, ih]
    rfl

/-- One cat-strategy group computes exactly the per-member reduced tensors. -/
theorem cat_group_spec (g : List FusionElement) (hwf : ∀ fe ∈ g, fe.wf) :
    catGroupResult g = g.map FusionElement.reduced := by
  rw [catGroupResult, _fuse_with_cat, allReduce_flatten g hwf, _scatter_results]
  have hsizes : g.map FusionElement.size
      = (g.map FusionElement.reducedData).map List.length := by
    rw [List.map_map]
    refine List.map_congr_left ?_
    intro fe hfe
    exact (reducedData_length fe (hwf fe hfe)).symm
  rw [hsizes, splitSizes_flatten, zip_map_reduced]

theorem ringLoop_spec (bufferAt tailAt : Nat → List Val) (P : Nat)
    (hbuf : ∀ k, (bufferAt k).length = P) :
    ∀ (gs : List (List FusionElement)) (k : Nat),
      (∀ g ∈ gs, (∀ fe ∈ g, fe.wf) ∧ groupNumel g ≤ P) →
      ringLoop bufferAt tailAt k gs = gs.flatten.map FusionElement.reduced := by
  intro gs
  induction gs with
  | nil => intro k _; simp [ringLoop]
  | cons g rest ih =>
    intro k hgs
    have hg := hgs g (List.mem_cons_self g rest)
    rw [ringLoop, ringGroupResult,
      buffer_group_spec (bufferAt k) (tailAt k) g hg.1 (by rw [hbuf k]; exact hg.2),
      ih (k + 1) fun x hx => hgs x (List.mem_cons_of_mem g hx)]
    simp

theorem jitLoop_spec (emptyMem tailAt : Nat → List Val)
    (hem : ∀ n, (emptyMem n).length = n) :
    ∀ (gs : List (List FusionElement)) (k : Nat),
      (∀ g ∈ gs, ∀ fe ∈ g, fe.wf) →
      jitLoop emptyMem tailAt k gs = gs.flatten.map FusionElement.reduced := by
  intro gs
  induction gs with
  | nil => intro k _; simp [jitLoop]
  | cons g rest ih =>
    intro k hgs
    have hg := hgs g (List.mem_cons_self g rest)
    have hjit : jitGroupResult emptyMem (tailAt k) g = g.map FusionElement.reduced :=
      buffer_group_spec (emptyMem (groupNumel g)) (tailAt k) g hg
        (le_of_eq (hem (groupNumel g)).symm)
    rw [jitLoop, hjit, ih (k + 1) fun x hx => hgs x (List.mem_cons_of_mem g hx)]
    simp

/-- C1: for every well-formed scanned element list, every strategy and every
positive `fusion_length` under which the pass completes (for the ring
strategy: every group fits in the allocated buffers), the list of final
output values produced by the rewritten graph — gradient tensor value plus
shape, in original output order — equals the list of output values of the
original graph, so in particular the two multisets agree and fusion is
observationally transparent. -/
theorem C1_fusion_preserves_outputs
    (fes : List FusionElement) (fusion_length P : Nat)
    (bufferAt ringTailAt jitTailAt emptyMem : Nat → List Val)
    (hwf : ∀ fe ∈ fes, fe.wf) (hfl : 0 < fusion_length)
    (hbuf : ∀ k, (bufferAt k).length = P)
    (hcap : ∀ g ∈ chunkList fes fusion_length, groupNumel g ≤ P)
    (hem : ∀ n, (emptyMem n).length = n) :
    fusedOutputsCat fes fusion_length = originalOutputs fes
    ∧ fusedOutputsRing fes fusion_length bufferAt ringTailAt = originalOutputs fes
    ∧ fusedOutputsJit fes fusion_length emptyMem jitTailAt = originalOutputs fes := by
  have hmemwf : ∀ g ∈ chunkList fes fusion_length, ∀ fe ∈ g, fe.wf := by
    intro g hg fe hfe
    refine hwf fe ?_
    rw [← chunkList_join fes fusion_length hfl]
    exact List.mem_flatten.mpr ⟨g, hg, hfe⟩
  have hjitwf : ∀ g ∈ jitGroups FusionElement.size fes fusion_length,
      ∀ fe ∈ g, fe.wf := by
    intro g hg fe hfe
    refine hwf fe ?_
    rw [← jitGroups_flatten FusionElement.size fes fusion_length]
    exact List.mem_flatten.mpr ⟨g, hg, hfe⟩
  refine ⟨?_, ?_, ?_⟩
  · rw [fusedOutputsCat,
      List.map_congr_left fun g hg => cat_group_spec g (hmemwf g hg),
      ← List.map_flatten, chunkList_join fes fusion_length hfl]
    rfl
  · rw [fusedOutputsRing,
      ringLoop_spec bufferAt ringTailAt P hbuf _ 0
        (fun g hg => ⟨hmemwf g hg, hcap g hg⟩),
      chunkList_join fes fusion_length hfl]
    rfl
  · rw [fusedOutputsJit,
      jitLoop_spec emptyMem jitTailAt hem _ 0 hjitwf,
      jitGroups_flatten FusionElement.size fes fusion_length]
    rfl

theorem C1_fusion_preserves_outputs_witness :
    (∀ fe ∈ [(⟨2, [2], [1, 2], [10, 20]⟩ : FusionElement),
        ⟨1, [1], [3], [30]⟩, ⟨1, [1], [4], [40]⟩], fe.wf)
    ∧ (fusedOutputsCat
          [⟨2, [2], [1, 2], [10, 20]⟩, ⟨1, [1], [3], [30]⟩, ⟨1, [1], [4], [40]⟩] 2
        = originalOutputs
          [⟨2, [2], [1, 2], [10, 20]⟩, ⟨1, [1], [3], [30]⟩, ⟨1, [1], [4], [40]⟩]
      ∧ fusedOutputsRing
          [⟨2, [2], [1, 2], [10, 20]⟩, ⟨1, [1], [3], [30]⟩, ⟨1, [1], [4], [40]⟩] 2
          (fun _ => [7, 7, 7]) (fun _ => [])
        = originalOutputs
          [⟨2, [2], [1, 2], [10, 20]⟩, ⟨1, [1], [3], [30]⟩, ⟨1, [1], [4], [40]⟩]
      ∧ fusedOutputsJit
          [⟨2, [2], [1, 2], [10, 20]⟩, ⟨1, [1], [3], [30]⟩, ⟨1, [1], [4], [40]⟩] 2
          (fun n => List.replicate n 9) (fun _ => [])
        = originalOutputs
          [⟨2, [2], [1, 2], [10, 20]⟩, ⟨1, [1], [3], [30]⟩, ⟨1, [1], [4], [40]⟩]) :=
  ⟨by decide,
   C1_fusion_preserves_outputs
     [⟨2, [2], [1, 2], [10, 20]⟩, ⟨1, [1], [3], [30]⟩, ⟨1, [1], [4], [40]⟩] 2 3
     (fun _ => [7, 7, 7]) (fun _ => []) (fun _ => []) (fun n => List.replicate n 9)
     (by decide) (by decide) (fun _ => rfl) (by decide)
     (fun n => List.length_replicate ..)⟩

end SpmdFusion
